import Mathlib

/-
Verification of the playback scheduling engine of the `speak` daemon
(`daemon/server.py`).  The Python classes `QueueEntry` and `AudioQueue` are
embedded shallowly: the mutable attributes of `AudioQueue.__init__` become the
fields of `QueueState`, every public method becomes a pure function from the
old state (plus the outcomes of external effects, such as whether `kill()`
raises `ProcessLookupError`) to the new state together with the method's
return value, and the worker coroutine's inner playback loop becomes a
recursion over the sequence of process-exit events it observes.  Durations
and clock differences are modelled as rationals; `self._process` is modelled
as `Option (Option Int)`: `none` = no process object, `some none` = a live
process (`returncode is None`), `some (some rc)` = an exited process.
-/

namespace Speak

/-- One element of `QueueEntry.dialogue_segments`: a dict
`{voice, text, chars}` built in `handle_speak_dialogue`; `chars` is read with
`seg.get("chars", 1)`, hence modelled as an `Option`. -/
structure DialogueSeg where
  voice : String
  text : String
  chars : Option Nat
deriving DecidableEq

/-- The `QueueEntry` dataclass of `daemon/server.py` (timestamps and
durations as rationals).  `channel` is `str | None` in the source. -/
structure QueueEntry where
  id : String
  audio_path : String
  text_preview : String
  voice_label : String
  created_at : ℚ
  entry_type : String := "speak"
  dialogue_segments : List DialogueSeg := []
  channel : Option String := none
  priority : Bool := false
  history_id : String := ""
  full_text : String := ""
  is_replay : Bool := false
deriving DecidableEq

/-- A history dict as appended by `AudioQueue._worker` (lines 508-517). -/
structure HistoryRecord where
  id : String
  voice : String
  text : String
  channel : Option String
  timestamp : ℚ
  duration : Option ℚ
  type : String
  failed : Bool
deriving DecidableEq

/-- `MAX_HISTORY = 1000` (line 194). -/
abbrev MAX_HISTORY : ℕ := 1000

/-- The mutable attributes of `AudioQueue` set up in `__init__`
(lines 331-346).  `process = some none` means a live player process. -/
structure QueueState where
  deque : List QueueEntry
  hasItems : Bool
  pausedGlobal : Bool
  resumeEventSet : Bool
  pausedChannels : List String
  current : Option QueueEntry
  process : Option (Option Int)
  history : List HistoryRecord
  pauseRequested : Bool
  seekOffset : Option ℚ
deriving DecidableEq

/-- The state produced by `AudioQueue.__init__` (the resume event starts
set, everything else empty/false). -/
def emptyState : QueueState :=
  { deque := []
    hasItems := false
    pausedGlobal := false
    resumeEventSet := true
    pausedChannels := []
    current := none
    process := none
    history := []
    pauseRequested := false
    seekOffset := none }

/-- `AudioQueue.enqueue` (lines 351-357): `appendleft` on priority else
`append`, set the has-items event, and return `len(self._deque)` — the queue
length after insertion. -/
def enqueue (entry : QueueEntry) (st : QueueState) : ℕ × QueueState :=
  let d := if entry.priority then entry :: st.deque else st.deque ++ [entry]
  (d.length, { st with deque := d, hasItems := true })

/-- The skip test of `AudioQueue._pick_next` (line 361):
`entry.channel and entry.channel in self._paused_channels`.  A falsy channel
(`None` or the empty string) is never skipped. -/
def channelPausedB (pausedChannels : List String) (e : QueueEntry) : Bool :=
  match e.channel with
  | none => false
  | some c => (c != "") && pausedChannels.contains c

/-- Plain paused-set membership of an entry's channel, the wording used by
the specification ("whose channel is not in the paused-channel set"). -/
def inPausedSetB (pausedChannels : List String) (e : QueueEntry) : Bool :=
  match e.channel with
  | none => false
  | some c => pausedChannels.contains c

/-- `AudioQueue._pick_next` (lines 359-365): scan the deque in order, skip
entries of paused channels, delete and return the first eligible entry.  The
result also carries the deque after the deletion (`del self._deque[i]`). -/
def pickNext (pausedChannels : List String) :
    List QueueEntry → Option (QueueEntry × List QueueEntry)
  | [] => none
  | e :: rest =>
    if channelPausedB pausedChannels e then
      match pickNext pausedChannels rest with
      | none => none
      | some (p, rest2) => some (p, e :: rest2)
    else
      some (e, rest)

/-- Repeatedly apply `_pick_next`, collecting the order in which queued
entries are handed to the worker (fuel-bounded by the queue length). -/
def drainAux (pausedChannels : List String) :
    ℕ → List QueueEntry → List QueueEntry
  | 0, _ => []
  | n + 1, d =>
    match pickNext pausedChannels d with
    | none => []
    | some (e, d2) => e :: drainAux pausedChannels n d2

/-- The play order of a pending deque under a fixed paused-channel set. -/
def playOrder (pausedChannels : List String) (d : List QueueEntry) :
    List QueueEntry :=
  drainAux pausedChannels d.length d

/-- The drain loop of `AudioQueue.clear` with `channel is None`
(lines 574-580): pop every entry, unlink its audio file, count it.  Returns
the count and the deleted paths in pop order. -/
def clearAllLoop : List QueueEntry → ℕ × List String
  | [] => (0, [])
  | e :: rest =>
    let r := clearAllLoop rest
    (r.1 + 1, e.audio_path :: r.2)

/-- The rebuild loop of `AudioQueue.clear` with a channel (lines 589-598):
keep entries whose channel differs, unlink and count the matching ones.
Returns the new deque, the count and the deleted paths. -/
def clearChannelLoop (ch : String) :
    List QueueEntry → List QueueEntry × ℕ × List String
  | [] => ([], 0, [])
  | e :: rest =>
    let r := clearChannelLoop ch rest
    if e.channel == some ch then (r.1, r.2.1 + 1, e.audio_path :: r.2.2)
    else (e :: r.1, r.2.1, r.2.2)

/-- `AudioQueue.clear` (lines 571-602).  Result: the returned count, the new
state, the unlinked audio paths, and whether the active process was killed
(`self._process and self._process.returncode is None`, the kill also being
counted). -/
def clear (channel : Option String) (st : QueueState) :
    ℕ × QueueState × List String × Bool :=
  match channel with
  | none =>
    let r := clearAllLoop st.deque
    let killActive := st.process == some none
    ((if killActive then r.1 + 1 else r.1),
      { st with deque := [], hasItems := false }, r.2, killActive)
  | some ch =>
    let r := clearChannelLoop ch st.deque
    (r.2.1,
      { st with deque := r.1,
                hasItems := if r.1.isEmpty then false else st.hasItems },
      r.2.2, false)

/-- `AudioQueue.seek` (lines 613-624).  `killRaises` is true when
`self._process.kill()` raises `ProcessLookupError`.  Result: the returned
bool, the new state, and whether `kill()` was called. -/
def seek (offset : ℚ) (killRaises : Bool) (st : QueueState) :
    Bool × QueueState × Bool :=
  if st.current.isNone || !(st.process == some none) then
    (false, st, false)
  else
    if killRaises then
      (false, { st with seekOffset := none, pauseRequested := false }, true)
    else
      (true, { st with seekOffset := some offset, pauseRequested := true },
        true)

/-- `set.add` on the paused-channel set, keeping the list duplicate-free. -/
def chanInsert (c : String) (l : List String) : List String :=
  if l.contains c then l else l ++ [c]

/-- `AudioQueue.pause` (lines 626-641).  Global pause sets the flag, clears
the resume event and, if a process is live, sets `pause_requested` and kills
it (`pause_requested` is reset when the kill raises `ProcessLookupError`);
channel pause just adds the channel to the paused set.  The bool reports
whether `kill()` was called. -/
def pause (channel : Option String) (killRaises : Bool) (st : QueueState) :
    QueueState × Bool :=
  match channel with
  | none =>
    let st1 := { st with pausedGlobal := true, resumeEventSet := false }
    if st1.process == some none then
      if killRaises then ({ st1 with pauseRequested := false }, true)
      else ({ st1 with pauseRequested := true }, true)
    else (st1, false)
  | some c => ({ st with pausedChannels := chanInsert c st.pausedChannels },
      false)

/-- `AudioQueue.resume` (lines 643-649). -/
def resume (channel : Option String) (st : QueueState) : QueueState :=
  match channel with
  | none => { st with pausedGlobal := false, resumeEventSet := true }
  | some c => { st with pausedChannels := st.pausedChannels.erase c }

/-- Round-half-to-even to an integer, the rounding used by Python's built-in
`round`. -/
def roundHalfEven (x : ℚ) : ℤ :=
  if Int.fract x = 1 / 2 then
    (if 2 ∣ ⌊x⌋ then ⌊x⌋ else ⌊x⌋ + 1)
  else ⌊x + 1 / 2⌋

/-- Python's `round(x, 3)`: round to the nearest multiple of 1/1000, ties to
even. -/
def round3 (x : ℚ) : ℚ := (roundHalfEven (1000 * x) : ℚ) / 1000

/-- One observed exit of the player process in the worker's inner playback
loop (lines 461-492): its return code, the values of `self._pause_requested`
and `self._seek_offset` at that moment (set beforehand by `pause`/`seek`),
and the elapsed `time.monotonic() - self._play_start`. -/
structure ExitEvent where
  ret : Int
  pauseRequested : Bool
  seekOffset : Option ℚ
  elapsed : ℚ
deriving DecidableEq

/-- The worker's inner `while True` playback loop (lines 419-492) as a
recursion over the process-exit events it observes, tracking `play_offset`
and `play_failed`.  A seek-exit restarts from the pending offset, a
pause-exit adds the elapsed time to `play_offset` and waits for resume, and
any other exit leaves the loop; `play_failed` is set on a non-zero return
code with no pause/seek request pending.  `none` means the event list ran
out before the loop finished. -/
def playLoop (playOffset : ℚ) (playFailed : Bool) :
    List ExitEvent → Option (ℚ × Bool)
  | [] => none
  | ev :: rest =>
    let failed := playFailed || (decide (ev.ret ≠ 0) && !ev.pauseRequested)
    if ev.pauseRequested then
      match ev.seekOffset with
      | some o => playLoop o failed rest
      | none => playLoop (playOffset + ev.elapsed) failed rest
    else some (playOffset, failed)

/-- The value of `play_offset` at the start of each successive round of the
playback loop, mirroring `playLoop`'s offset updates. -/
def offsetTrace (playOffset : ℚ) : List ExitEvent → List ℚ
  | [] => [playOffset]
  | ev :: rest =>
    if ev.pauseRequested then
      match ev.seekOffset with
      | some o => playOffset :: offsetTrace o rest
      | none => playOffset :: offsetTrace (playOffset + ev.elapsed) rest
    else [playOffset]

/-- The history dict built in the worker's `finally` block (lines 508-517):
`entry.full_text or entry.text_preview` for the text, and
`round(duration, 3) if duration else None` for the duration. -/
def mkHistoryRecord (entry : QueueEntry) (duration : Option ℚ)
    (playFailed : Bool) : HistoryRecord :=
  { id := entry.history_id
    voice := entry.voice_label
    text := if entry.full_text == "" then entry.text_preview
            else entry.full_text
    channel := entry.channel
    timestamp := entry.created_at
    duration :=
      match duration with
      | some d => if d == 0 then none else some (round3 d)
      | none => none
    type := entry.entry_type
    failed := playFailed }

/-- `self._history.append(...)` followed by the trim
`if len > MAX_HISTORY: self._history = self._history[-MAX_HISTORY:]`
(lines 518-520). -/
def appendHistory (history : List HistoryRecord) (rec : HistoryRecord) :
    List HistoryRecord :=
  let h := history ++ [rec]
  if MAX_HISTORY < h.length then h.drop (h.length - MAX_HISTORY) else h

/-- The history side of the worker's `finally` block (lines 507-522): replay
entries append nothing, every other entry appends its record through the
ring-trimming `appendHistory`. -/
def finalizeEntry (history : List HistoryRecord) (entry : QueueEntry)
    (duration : Option ℚ) (playFailed : Bool) : List HistoryRecord :=
  if entry.is_replay then history
  else appendHistory history (mkHistoryRecord entry duration playFailed)

/-- `seg.get("chars", 1)` (lines 411, 414). -/
def segChars (s : DialogueSeg) : ℕ := s.chars.getD 1

/-- `seg_dur = (seg.get("chars", 1) / max(total_chars, 1)) * duration`
(line 414). -/
def spanWith (totalChars : ℕ) (duration : ℚ) (s : DialogueSeg) : ℚ :=
  ((segChars s : ℚ) / ((max totalChars 1 : ℕ) : ℚ)) * duration

/-- The dialogue-timing loop of the worker (lines 412-417), carrying the
running `seg_offset`: each segment is stamped with
`(round(seg_offset, 3), round(seg_offset + seg_dur, 3))` and `seg_offset`
advances by the unrounded `seg_dur`. -/
def assignTimingsFrom (totalChars : ℕ) (duration : ℚ) (segOffset : ℚ) :
    List DialogueSeg → List (ℚ × ℚ)
  | [] => []
  | s :: rest =>
    (round3 segOffset,
      round3 (segOffset + spanWith totalChars duration s)) ::
      assignTimingsFrom totalChars duration
        (segOffset + spanWith totalChars duration s) rest

/-- The start/end stamps given to a dialogue entry's segments once the total
duration is known (lines 410-417): `total_chars` is the sum of the segments'
`chars` and the scan starts at `seg_offset = 0.0`. -/
def assignTimings (segs : List DialogueSeg) (duration : ℚ) : List (ℚ × ℚ) :=
  assignTimingsFrom ((segs.map segChars).sum) duration 0 segs

section ClaimC1

/-- A plain non-priority entry (used as concrete test data). -/
def entryA : QueueEntry :=
  { id := "a1", audio_path := "/tmp/a.mp3", text_preview := "A"
    voice_label := "v", created_at := 0 }

/-- A priority entry (used as concrete test data). -/
def entryB : QueueEntry :=
  { id := "b1", audio_path := "/tmp/b.mp3", text_preview := "B"
    voice_label := "v", created_at := 1, priority := true }

/-- A state whose deque already holds one entry. -/
def stOneQueued : QueueState :=
  { emptyState with deque := [entryA], hasItems := true }

/-- C1, counterexample: enqueueing the priority entry `entryB` into a queue
already holding `entryA` inserts it at the head (1-based position 1), yet
`enqueue` returns 2 — the queue length — not the entry's position, refuting
"head-inserted priority entries at position 1". -/
theorem enqueue_priority_position_counterexample :
    (enqueue entryB stOneQueued).1 = 2 ∧
    (enqueue entryB stOneQueued).2.deque = [entryB, entryA] ∧
    ¬ (enqueue entryB stOneQueued).1 = 1 := by
  refine ⟨rfl, rfl, by decide⟩

/-- C1, amended: `enqueue` inserts at the head when `entry.priority` is true
and at the tail otherwise, sets the has-items event, and always returns the
queue length after insertion.  That return value is the entry's 1-based
position only for tail inserts; a head-inserted priority entry (position 1)
still gets the queue length. -/
theorem enqueue_inserts_and_returns_length (entry : QueueEntry)
    (st : QueueState) :
    (enqueue entry st).2.deque =
      (if entry.priority then entry :: st.deque else st.deque ++ [entry]) ∧
    (enqueue entry st).1 = st.deque.length + 1 ∧
    (enqueue entry st).2.hasItems = true := by
  refine ⟨rfl, ?_, rfl⟩
  unfold enqueue
  cases entry.priority <;> simp

end ClaimC1

section ClaimC5

/-- C5: a priority enqueue inserts at the head of the deque, hence ahead of
every previously queued entry (in particular every non-priority one); and in
the concrete scenario — enqueue `entryA` (no channel, non-priority) into the
fresh queue, then enqueue `entryB` (priority) — the pick order is `entryB`
before `entryA`. -/
theorem priority_enqueue_goes_ahead (entry : QueueEntry) (st : QueueState)
    (hp : entry.priority = true) :
    (enqueue entry st).2.deque = entry :: st.deque ∧
    playOrder [] ((enqueue entryB (enqueue entryA emptyState).2).2.deque) =
      [entryB, entryA] := by
  constructor
  · simp [enqueue, hp]
  · rfl

/-- Witness for C5 at the concrete priority entry `entryB`. -/
theorem priority_enqueue_goes_ahead_witness :
    entryB.priority = true ∧
    (enqueue entryB stOneQueued).2.deque = entryB :: stOneQueued.deque :=
  ⟨rfl, (priority_enqueue_goes_ahead entryB stOneQueued rfl).1⟩

end ClaimC5

section ClaimC6

/-- The pop-everything loop of `clear(None)` counts every entry and unlinks
every audio path in order. -/
theorem clearAllLoop_eq (d : List QueueEntry) :
    clearAllLoop d = (d.length, d.map (fun e => e.audio_path)) := by
  induction d with
  | nil => rfl
  | cons e rest ih => simp [clearAllLoop, ih]

/-- The rebuild loop of `clear(channel)` keeps exactly the other-channel
entries in order and counts/unlinks exactly the matching ones. -/
theorem clearChannelLoop_eq (ch : String) (d : List QueueEntry) :
    clearChannelLoop ch d =
      (d.filter (fun e => !(e.channel == some ch)),
        (d.filter (fun e => e.channel == some ch)).length,
        (d.filter (fun e => e.channel == some ch)).map
          (fun e => e.audio_path)) := by
  induction d with
  | nil => rfl
  | cons e rest ih =>
    by_cases h : e.channel = some ch
    · simp [clearChannelLoop, ih, List.filter_cons, h]
    · simp [clearChannelLoop, ih, List.filter_cons, h]

/-- C6: `clear` with no channel empties the deque, deletes every queued
entry's audio file, counts a kill of the active process exactly when one is
live, and returns the count; `clear` with channel `ch` removes exactly the
queued entries of that channel (deleting their files), keeps every other
entry in place and in order (a sublist of the old deque), never kills, and
leaves the current entry and process untouched. -/
theorem clear_spec (st : QueueState) (ch : String) :
    (clear none st).1 =
      st.deque.length + (if st.process == some none then 1 else 0) ∧
    (clear none st).2.1.deque = [] ∧
    (clear none st).2.2.1 = st.deque.map (fun e => e.audio_path) ∧
    (clear none st).2.2.2 = (st.process == some none) ∧
    (clear none st).2.1.current = st.current ∧
    (clear (some ch) st).1 =
      (st.deque.filter (fun e => e.channel == some ch)).length ∧
    (clear (some ch) st).2.1.deque =
      st.deque.filter (fun e => !(e.channel == some ch)) ∧
    (clear (some ch) st).2.1.deque.Sublist st.deque ∧
    (clear (some ch) st).2.2.1 =
      (st.deque.filter (fun e => e.channel == some ch)).map
        (fun e => e.audio_path) ∧
    (clear (some ch) st).2.2.2 = false ∧
    (clear (some ch) st).2.1.current = st.current ∧
    (clear (some ch) st).2.1.process = st.process := by
  simp only [clear, clearAllLoop_eq, clearChannelLoop_eq]
  refine ⟨?_, trivial, trivial, trivial, trivial, trivial, trivial,
    List.filter_sublist _, trivial, trivial, trivial, trivial⟩
  cases h : (st.process == some none) <;> simp

end ClaimC6

section ClaimC7

/-- A state in which `entryA` is playing: a current entry and a live player
process (`returncode is None`). -/
def stActive : QueueState :=
  { emptyState with
    current := some entryA
    process := some none
    hasItems := true }

/-- C7: `seek` with no current entry or no live process returns false and
changes nothing (no kill); while playback is active it records the
pending-seek offset, sets the pause-requested (intentional-kill) flag, kills
the process and returns true; if the kill raises, it returns false (the kill
having been attempted). -/
theorem seek_spec (st : QueueState) (offset : ℚ) (killRaises : Bool) :
    (st.current = none ∨ st.process ≠ some none →
      seek offset killRaises st = (false, st, false)) ∧
    (st.current ≠ none → st.process = some none →
      seek offset false st =
        (true, { st with seekOffset := some offset, pauseRequested := true },
          true)) ∧
    (st.current ≠ none → st.process = some none →
      (seek offset true st).1 = false ∧ (seek offset true st).2.2 = true) := by
  refine ⟨?_, ?_, ?_⟩
  · rintro (h | h)
    · simp [seek, h]
    · simp [seek, h]
  · intro h1 h2
    simp [seek, Option.isNone_iff_eq_none, h1, h2]
  · intro h1 h2
    simp [seek, Option.isNone_iff_eq_none, h1, h2]

/-- Witness for C7: seeking in the active state succeeds and records the
offset; seeking in the idle fresh state returns false unchanged. -/
theorem seek_spec_witness :
    seek 5 false stActive =
      (true, { stActive with seekOffset := some 5, pauseRequested := true },
        true) ∧
    seek 5 false emptyState = (false, emptyState, false) :=
  ⟨(seek_spec stActive 5 false).2.1 (by decide) rfl,
    (seek_spec emptyState 5 false).1 (Or.inl rfl)⟩

end ClaimC7

section ClaimC10

/-- An active state that additionally has a pause request already pending
(reachable: `pause()` sets the flag and kills, but the worker has not yet
reaped the process, so `returncode` is still `None`). -/
def stPrePaused : QueueState :=
  { emptyState with
    current := some entryA
    process := some none
    hasItems := true
    pauseRequested := true }

/-- C10, counterexample: in `stPrePaused` the kill inside `seek` raising
`ProcessLookupError` makes `seek` return false, but the control state is not
unchanged — the pre-existing `pause_requested = True` is wiped to `False`
(the error path resets the flags to defaults instead of restoring them). -/
theorem seek_killfail_counterexample :
    (seek 5 true stPrePaused).1 = false ∧
    (seek 5 true stPrePaused).2.1.pauseRequested = false ∧
    stPrePaused.pauseRequested = true ∧
    ¬ (seek 5 true stPrePaused).2.1 = stPrePaused := by
  refine ⟨rfl, rfl, rfl, by decide⟩

/-- C10, amended: when `seek` finds a current entry and a live process but
the kill raises, it returns false with the pending-seek offset set to `none`
and the pause-requested flag set to `false`; this restores the pre-call
control state only when that state had no pause request and no pending seek
offset — otherwise those flags are wiped. -/
theorem seek_killfail_resets_flags (st : QueueState) (offset : ℚ)
    (h1 : st.current ≠ none) (h2 : st.process = some none) :
    (seek offset true st).1 = false ∧
    (seek offset true st).2.1 =
      { st with seekOffset := none, pauseRequested := false } ∧
    (st.pauseRequested = false → st.seekOffset = none →
      (seek offset true st).2.1 = st) := by
  have hst : seek offset true st =
      (false, { st with seekOffset := none, pauseRequested := false },
        true) := by
    simp [seek, Option.isNone_iff_eq_none, h1, h2]
  refine ⟨by rw [hst], by rw [hst], ?_⟩
  intro hp hs
  rw [hst]
  cases st
  simp_all

/-- Witness for C10's amended claim at the clean active state (no prior
pause request, no pending seek): the failed seek leaves it unchanged. -/
theorem seek_killfail_resets_flags_witness :
    (seek 5 true stActive).1 = false ∧ (seek 5 true stActive).2.1 = stActive :=
  ⟨(seek_killfail_resets_flags stActive 5 (by decide) rfl).1,
    (seek_killfail_resets_flags stActive 5 (by decide) rfl).2.2 rfl rfl⟩

end ClaimC10

section ClaimC2

/-- On entries whose channel is not the empty string (the producers coerce
`channel=""` to `None` before building a `QueueEntry`), the source's
truthiness-guarded skip test agrees with plain paused-set membership. -/
theorem channelPausedB_eq_inPausedSetB (paused : List String)
    (e : QueueEntry) (h : e.channel ≠ some "") :
    channelPausedB paused e = inPausedSetB paused e := by
  cases hc : e.channel with
  | none => simp [channelPausedB, inPausedSetB, hc]
  | some c =>
    have hne : c ≠ "" := fun h2 => h (by rw [hc, h2])
    have hb : (c != "") = true := by simpa using hne
    simp [channelPausedB, inPausedSetB, hc, hb]

/-- `_pick_next` returns `None` exactly when every pending entry is skipped
by the paused-channel test. -/
theorem pickNext_eq_none_iff (paused : List String) (l : List QueueEntry) :
    pickNext paused l = none ↔ ∀ x ∈ l, channelPausedB paused x = true := by
  induction l with
  | nil => simp [pickNext]
  | cons e rest ih =>
    by_cases hb : channelPausedB paused e = true
    · cases hrec : pickNext paused rest with
      | none =>
        simp [pickNext, hb, hrec]
        exact ih.mp hrec
      | some qr =>
        obtain ⟨q, r2⟩ := qr
        have hnall : ¬ ∀ x ∈ rest, channelPausedB paused x = true := by
          intro hall
          rw [ih.mpr hall] at hrec
          cases hrec
        simp [pickNext, hb, hrec]
        push_neg at hnall
        simpa using hnall
    · have hb2 : channelPausedB paused e = false := by
        cases h : channelPausedB paused e
        · rfl
        · exact absurd h hb
      simp [pickNext, hb2]

/-- `_pick_next` returns `some (p, l2)` exactly when the pending sequence
splits as `pre ++ p :: post` with every entry of `pre` paused-skipped, `p`
eligible, and `l2 = pre ++ post` (the scanned prefix left in place, in
order, with only `p` deleted). -/
theorem pickNext_eq_some_iff (paused : List String) (l : List QueueEntry) :
    ∀ (p : QueueEntry) (l2 : List QueueEntry),
      pickNext paused l = some (p, l2) ↔
        ∃ pre post, l = pre ++ p :: post ∧
          (∀ x ∈ pre, channelPausedB paused x = true) ∧
          channelPausedB paused p = false ∧ l2 = pre ++ post := by
  induction l with
  | nil =>
    intro p l2
    constructor
    · intro h; cases h
    · rintro ⟨pre, post, hl, -, -, -⟩
      exact absurd hl.symm (List.append_ne_nil_of_right_ne_nil pre
        (List.cons_ne_nil p post))
  | cons e rest ih =>
    intro p l2
    by_cases hb : channelPausedB paused e = true
    · cases hrec : pickNext paused rest with
      | none =>
        have hall : ∀ x ∈ rest, channelPausedB paused x = true :=
          (pickNext_eq_none_iff paused rest).mp hrec
        have hlhs : pickNext paused (e :: rest) = none := by
          simp [pickNext, hb, hrec]
        rw [hlhs]
        constructor
        · intro h; cases h
        · rintro ⟨pre, post, hl, hpre, hp, -⟩
          exfalso
          have hpmem : p ∈ e :: rest := by
            rw [hl]
            exact List.mem_append_right _ (List.mem_cons_self p post)
          rcases List.mem_cons.mp hpmem with h1 | h2
          · rw [← h1] at hb; rw [hp] at hb; cases hb
          · rw [hall p h2] at hp; cases hp
      | some qr =>
        obtain ⟨q, r2⟩ := qr
        have hlhs : pickNext paused (e :: rest) = some (q, e :: r2) := by
          simp [pickNext, hb, hrec]
        rw [hlhs]
        constructor
        · intro h
          rw [Option.some_inj, Prod.mk.injEq] at h
          obtain ⟨hq, hl2⟩ := h
          obtain ⟨pre, post, hl, hpre, hp, hr2⟩ := (ih q r2).mp hrec
          refine ⟨e :: pre, post, ?_, ?_, ?_, ?_⟩
          · rw [List.cons_append, ← hq, ← hl]
          · intro x hx
            rcases List.mem_cons.mp hx with h1 | h2
            · rw [h1]; exact hb
            · exact hpre x h2
          · rw [← hq]; exact hp
          · rw [← hl2, hr2, List.cons_append]
        · rintro ⟨pre, post, hl, hpre, hp, hl2⟩
          cases pre with
          | nil =>
            exfalso
            have hpe : p = e := by
              have := congrArg List.head? hl
              simpa using this.symm
            rw [hpe] at hp; rw [hp] at hb; cases hb
          | cons e2 pre2 =>
            have he2 : e2 = e := by
              have := congrArg List.head? hl
              simpa using this.symm
            have hrest : rest = pre2 ++ p :: post := by
              have := congrArg List.tail hl
              simpa using this
            have h2 := (ih p (pre2 ++ post)).mpr
              ⟨pre2, post, hrest,
                fun x hx => hpre x (List.mem_cons_of_mem e2 hx), hp, rfl⟩
            rw [h2, Option.some_inj, Prod.mk.injEq] at hrec
            obtain ⟨hq, hr2⟩ := hrec
            rw [Option.some_inj, Prod.mk.injEq]
            constructor
            · exact hq.symm
            · rw [← hr2, hl2, he2, List.cons_append]
    · have hb2 : channelPausedB paused e = false := by
        cases h : channelPausedB paused e
        · rfl
        · exact absurd h hb
      have hlhs : pickNext paused (e :: rest) = some (e, rest) := by
        simp [pickNext, hb2]
      rw [hlhs]
      constructor
      · intro h
        rw [Option.some_inj, Prod.mk.injEq] at h
        obtain ⟨hpe, hle⟩ := h
        refine ⟨[], rest, ?_, by simp, ?_, ?_⟩
        · rw [← hpe]; rfl
        · rw [← hpe]; exact hb2
        · rw [← hle]; rfl
      · rintro ⟨pre, post, hl, hpre, hp, hl2⟩
        cases pre with
        | nil =>
          have hpe : p = e := by
            have := congrArg List.head? hl
            simpa using this.symm
          have hrest : rest = post := by
            have := congrArg List.tail hl
            simpa using this
          rw [hpe, hl2, hrest]
          rfl
        | cons e2 pre2 =>
          exfalso
          have he2 : e2 = e := by
            have := congrArg List.head? hl
            simpa using this.symm
          have := hpre e2 (List.mem_cons_self e2 pre2)
          rw [he2] at this
          exact hb this

/-- C2: under the producers' guarantee that no queued entry carries the
empty-string channel, `_pick_next` scans the pending sequence in order and
removes and returns the first entry whose channel is not in the
paused-channel set; entries of paused channels are left in place with their
relative order unchanged; `_pick_next` yields nothing exactly when every
entry's channel is paused; and removing a channel from the paused set makes
every entry of that channel eligible again (without touching the deque). -/
theorem pick_next_spec (paused : List String) (l : List QueueEntry)
    (hch : ∀ e ∈ l, e.channel ≠ some "") :
    (∀ (p : QueueEntry) (l2 : List QueueEntry),
      pickNext paused l = some (p, l2) ↔
        ∃ pre post, l = pre ++ p :: post ∧
          (∀ x ∈ pre, inPausedSetB paused x = true) ∧
          inPausedSetB paused p = false ∧ l2 = pre ++ post) ∧
    (pickNext paused l = none ↔ ∀ x ∈ l, inPausedSetB paused x = true) ∧
    (∀ (paused2 : List String) (x : QueueEntry) (c : String),
      x.channel = some c → paused2.contains c = false →
      inPausedSetB paused2 x = false) := by
  have hcb : ∀ x ∈ l, channelPausedB paused x = inPausedSetB paused x :=
    fun x hx => channelPausedB_eq_inPausedSetB paused x (hch x hx)
  refine ⟨?_, ?_, ?_⟩
  · intro p l2
    rw [pickNext_eq_some_iff]
    constructor
    · rintro ⟨pre, post, hl, hpre, hp, hl2⟩
      refine ⟨pre, post, hl, ?_, ?_, hl2⟩
      · intro x hx
        rw [← hcb x (by rw [hl]; exact List.mem_append_left _ hx)]
        exact hpre x hx
      · rw [← hcb p
          (by rw [hl]; exact List.mem_append_right _ (List.mem_cons_self p post))]
        exact hp
    · rintro ⟨pre, post, hl, hpre, hp, hl2⟩
      refine ⟨pre, post, hl, ?_, ?_, hl2⟩
      · intro x hx
        rw [hcb x (by rw [hl]; exact List.mem_append_left _ hx)]
        exact hpre x hx
      · rw [hcb p
          (by rw [hl]; exact List.mem_append_right _ (List.mem_cons_self p post))]
        exact hp
  · rw [pickNext_eq_none_iff]
    constructor
    · intro h x hx; rw [← hcb x hx]; exact h x hx
    · intro h x hx; rw [hcb x hx]; exact h x hx
  · intro paused2 x c hx hc
    simp only [inPausedSetB, hx, hc]

/-- An entry on channel "x" (used as concrete test data). -/
def entryX : QueueEntry :=
  { id := "x1", audio_path := "/tmp/x.mp3", text_preview := "X"
    voice_label := "v", created_at := 2, channel := some "x" }

/-- Witness for C2: with channel "x" paused and the deque holding the "x"
entry ahead of a default-channel entry, the picker removes the default
entry and leaves the "x" entry in place. -/
theorem pick_next_spec_witness :
    (∀ e ∈ [entryX, entryA], e.channel ≠ some "") ∧
    (pickNext ["x"] [entryX, entryA] = some (entryA, [entryX]) ↔
      ∃ pre post, [entryX, entryA] = pre ++ entryA :: post ∧
        (∀ x ∈ pre, inPausedSetB ["x"] x = true) ∧
        inPausedSetB ["x"] entryA = false ∧ [entryX] = pre ++ post) :=
  ⟨by decide,
    (pick_next_spec ["x"] [entryX, entryA] (by decide)).1 entryA [entryX]⟩

end ClaimC2

section ClaimC3

/-- The offset trace always starts with the offset of the current round. -/
theorem offsetTrace_head (evs : List ExitEvent) (off : ℚ) :
    (offsetTrace off evs).head? = some off := by
  cases evs with
  | nil => rfl
  | cons ev rest =>
    cases hp : ev.pauseRequested <;> cases hs : ev.seekOffset <;>
      simp [offsetTrace, hp, hs]

/-- Over pause-only exit events the offset trace is the running sum of the
elapsed times: each pause records the elapsed time into the accumulated
offset and the next round starts exactly there. -/
theorem offsetTrace_pause_only (evs : List ExitEvent) :
    ∀ off : ℚ,
      (∀ ev ∈ evs, ev.pauseRequested = true ∧ ev.seekOffset = none) →
      offsetTrace off evs =
        evs.scanl (fun acc ev => acc + ev.elapsed) off := by
  induction evs with
  | nil => intro off _; rfl
  | cons ev rest ih =>
    intro off h
    obtain ⟨hp, hs⟩ := h ev (List.mem_cons_self ev rest)
    simp only [List.scanl]
    have hstep : offsetTrace off (ev :: rest) =
        off :: offsetTrace (off + ev.elapsed) rest := by
      simp [offsetTrace, hp, hs]
    rw [hstep, ih (off + ev.elapsed)
      (fun e he => h e (List.mem_cons_of_mem ev he))]

/-- Over pause-only exit events with non-negative elapsed times the offset
trace is monotonically non-decreasing. -/
theorem offsetTrace_chain (evs : List ExitEvent) :
    ∀ off : ℚ,
      (∀ ev ∈ evs,
        ev.pauseRequested = true ∧ ev.seekOffset = none ∧ 0 ≤ ev.elapsed) →
      List.Chain' (· ≤ ·) (offsetTrace off evs) := by
  induction evs with
  | nil => intro off _; simp [offsetTrace]
  | cons ev rest ih =>
    intro off h
    obtain ⟨hp, hs, he⟩ := h ev (List.mem_cons_self ev rest)
    have htail := ih (off + ev.elapsed)
      (fun e hm => h e (List.mem_cons_of_mem ev hm))
    have hstep : offsetTrace off (ev :: rest) =
        off :: offsetTrace (off + ev.elapsed) rest := by
      simp [offsetTrace, hp, hs]
    rw [hstep, List.chain'_cons']
    refine ⟨?_, htail⟩
    intro y hy
    rw [offsetTrace_head] at hy
    have : y = off + ev.elapsed := by simpa using hy.symm
    rw [this]
    linarith

/-- Running the playback loop through pause-only events and then a final
non-pause exit plays the last round from the fully accumulated offset. -/
theorem playLoop_pause_only (evs : List ExitEvent) :
    ∀ (off : ℚ) (stop : ExitEvent),
      (∀ ev ∈ evs, ev.pauseRequested = true ∧ ev.seekOffset = none) →
      stop.pauseRequested = false →
      playLoop off false (evs ++ [stop]) =
        some (off + (evs.map ExitEvent.elapsed).sum,
          decide (stop.ret ≠ 0)) := by
  induction evs with
  | nil =>
    intro off stop _ hstop
    simp [playLoop, hstop]
  | cons ev rest ih =>
    intro off stop h hstop
    obtain ⟨hp, hs⟩ := h ev (List.mem_cons_self ev rest)
    have hrec := ih (off + ev.elapsed) stop
      (fun e hm => h e (List.mem_cons_of_mem ev hm)) hstop
    simp [playLoop, hp, hs, hrec, add_assoc]

/-- C3: a global `pause` while a process is live marks the kill as a pause
request; in the worker, every pause/resume cycle adds the elapsed time since
play start to the accumulated `play_offset` (the trace of round-start
offsets is exactly the running sum of the elapsed times, so each round
resumes from the accumulated offset, never from zero); the offset is
monotonically non-decreasing across cycles; and the final round after the
pause cycles plays from the fully accumulated offset. -/
theorem pause_resume_offset_spec (st : QueueState) (off : ℚ)
    (evs : List ExitEvent)
    (hlive : st.process = some none)
    (hpause : ∀ ev ∈ evs,
      ev.pauseRequested = true ∧ ev.seekOffset = none ∧ 0 ≤ ev.elapsed) :
    (pause none false st).1.pauseRequested = true ∧
    offsetTrace off evs =
      evs.scanl (fun acc ev => acc + ev.elapsed) off ∧
    List.Chain' (· ≤ ·) (offsetTrace off evs) ∧
    (∀ stop : ExitEvent, stop.pauseRequested = false →
      playLoop off false (evs ++ [stop]) =
        some (off + (evs.map ExitEvent.elapsed).sum,
          decide (stop.ret ≠ 0))) := by
  refine ⟨?_, ?_, ?_, ?_⟩
  · simp [pause, hlive]
  · exact offsetTrace_pause_only evs off
      (fun e he => ⟨(hpause e he).1, (hpause e he).2.1⟩)
  · exact offsetTrace_chain evs off hpause
  · intro stop hstop
    exact playLoop_pause_only evs off stop
      (fun e he => ⟨(hpause e he).1, (hpause e he).2.1⟩) hstop

/-- A pause-induced exit (afplay killed) observed after 2 seconds. -/
def evPause1 : ExitEvent :=
  { ret := -9, pauseRequested := true, seekOffset := none, elapsed := 2 }

/-- A second pause-induced exit observed after a further 3 seconds. -/
def evPause2 : ExitEvent :=
  { ret := -9, pauseRequested := true, seekOffset := none, elapsed := 3 }

/-- A normal completion exit. -/
def evStop : ExitEvent :=
  { ret := 0, pauseRequested := false, seekOffset := none, elapsed := 1 }

/-- Witness for C3: two pause cycles of 2s and 3s starting at offset 0 give
the monotone trace and the final round plays from 0 + (2 + 3). -/
theorem pause_resume_offset_spec_witness :
    (pause none false stActive).1.pauseRequested = true ∧
    List.Chain' (· ≤ ·) (offsetTrace 0 [evPause1, evPause2]) ∧
    playLoop 0 false ([evPause1, evPause2] ++ [evStop]) =
      some (0 + ([evPause1, evPause2].map ExitEvent.elapsed).sum,
        decide (evStop.ret ≠ 0)) := by
  have h := pause_resume_offset_spec stActive 0 [evPause1, evPause2] rfl
    (by decide)
  exact ⟨h.1, h.2.2.1, h.2.2.2 evStop rfl⟩

end ClaimC3

section ClaimC4

/-- If the playback loop finishes, the observed exit events decompose into a
(possibly empty) run of pause/seek-requested exits followed by the one final
exit with no pause/seek pending, and the failure flag is set exactly by that
final exit's return code. -/
theorem playLoop_eq_some (evs : List ExitEvent) :
    ∀ (off : ℚ) (failed : Bool) (off2 : ℚ) (f : Bool),
      playLoop off failed evs = some (off2, f) →
      ∃ pre ev post, evs = pre ++ ev :: post ∧
        (∀ x ∈ pre, x.pauseRequested = true) ∧
        ev.pauseRequested = false ∧
        f = (failed || decide (ev.ret ≠ 0)) := by
  induction evs with
  | nil => intro off failed off2 f h; cases h
  | cons ev rest ih =>
    intro off failed off2 f h
    cases hp : ev.pauseRequested with
    | false =>
      simp [playLoop, hp] at h
      refine ⟨[], ev, rest, rfl, by simp, hp, ?_⟩
      rw [← h.2]
      simp
    | true =>
      cases hs : ev.seekOffset with
      | some o =>
        simp [playLoop, hp, hs] at h
        obtain ⟨pre, ev2, post, he, hpre, hp2, hf⟩ := ih _ _ _ _ h
        refine ⟨ev :: pre, ev2, post, by rw [he, List.cons_append], ?_, hp2,
          hf⟩
        intro x hx
        rcases List.mem_cons.mp hx with h1 | h2
        · rw [h1]; exact hp
        · exact hpre x h2
      | none =>
        simp [playLoop, hp, hs] at h
        obtain ⟨pre, ev2, post, he, hpre, hp2, hf⟩ := ih _ _ _ _ h
        refine ⟨ev :: pre, ev2, post, by rw [he, List.cons_append], ?_, hp2,
          hf⟩
        intro x hx
        rcases List.mem_cons.mp hx with h1 | h2
        · rw [h1]; exact hp
        · exact hpre x h2

/-- C4: when a non-replay entry's playback loop finishes with failure flag
`f`, the exit events split into pause/seek-induced exits (which never set
the flag) followed by the final exit, and `f = true` exactly when that final
exit had a non-zero return code with no pause/seek request pending; the
appended history record carries exactly `f` as its `failed` field, a record
is appended (the worker finalizes instead of aborting), and the exception
path records `failed = true`. -/
theorem history_failed_spec (entry : QueueEntry)
    (history : List HistoryRecord) (duration : Option ℚ)
    (evs : List ExitEvent) (off2 : ℚ) (f : Bool)
    (hrep : entry.is_replay = false)
    (hloop : playLoop 0 false evs = some (off2, f)) :
    (∃ pre ev post, evs = pre ++ ev :: post ∧
      (∀ x ∈ pre, x.pauseRequested = true) ∧
      ev.pauseRequested = false ∧
      f = decide (ev.ret ≠ 0)) ∧
    (mkHistoryRecord entry duration f).failed = f ∧
    finalizeEntry history entry duration f =
      appendHistory history (mkHistoryRecord entry duration f) ∧
    (mkHistoryRecord entry duration true).failed = true := by
  refine ⟨?_, rfl, ?_, rfl⟩
  · obtain ⟨pre, ev, post, he, hpre, hp, hf⟩ :=
      playLoop_eq_some evs 0 false off2 f hloop
    exact ⟨pre, ev, post, he, hpre, hp, by simpa using hf⟩
  · simp [finalizeEntry, hrep]

/-- Witness for C4: a pause cycle followed by a clean exit yields `f = false`
and a non-failed record for the non-replay entry `entryA`. -/
theorem history_failed_spec_witness :
    entryA.is_replay = false ∧
    playLoop 0 false [evPause1, evStop] = some (2, false) ∧
    (mkHistoryRecord entryA (some 1) false).failed = false :=
  ⟨rfl, by norm_num [playLoop, evPause1, evStop],
    (history_failed_spec entryA [] (some 1) [evPause1, evStop] 2 false rfl
      (by norm_num [playLoop, evPause1, evStop])).2.1⟩

end ClaimC4

section ClaimC8

/-- Keeping only the last `MAX_HISTORY` elements, appending, and keeping the
last `MAX_HISTORY` again is the same as appending first and keeping the last
`MAX_HISTORY` once. -/
theorem drop_last_append (l s : List HistoryRecord) :
    ((l.drop (l.length - MAX_HISTORY)) ++ s).drop
        ((l.drop (l.length - MAX_HISTORY) ++ s).length - MAX_HISTORY) =
      (l ++ s).drop ((l ++ s).length - MAX_HISTORY) := by
  have e1 : (l.length - MAX_HISTORY) +
        ((l.drop (l.length - MAX_HISTORY) ++ s).length - MAX_HISTORY)
      = (l ++ s).length - MAX_HISTORY := by
    simp only [List.length_append, List.length_drop]
    omega
  have e2 : ((l.drop (l.length - MAX_HISTORY) ++ s).length - MAX_HISTORY)
        - (l.drop (l.length - MAX_HISTORY)).length
      = (l ++ s).length - MAX_HISTORY - l.length := by
    simp only [List.length_append, List.length_drop]
    omega
  rw [List.drop_append_eq_append_drop, List.drop_append_eq_append_drop,
    List.drop_drop, e1, e2]

/-- Each `appendHistory` step equals "append, then keep the most recent
`MAX_HISTORY` records". -/
theorem appendHistory_eq_drop (h : List HistoryRecord) (rec : HistoryRecord) :
    appendHistory h rec =
      (h ++ [rec]).drop ((h ++ [rec]).length - MAX_HISTORY) := by
  simp only [appendHistory]
  by_cases hlen : MAX_HISTORY < (h ++ [rec]).length
  · rw [if_pos hlen]
  · rw [if_neg hlen]
    have h0 : (h ++ [rec]).length - MAX_HISTORY = 0 := by
      simp only [List.length_append] at hlen ⊢
      omega
    rw [h0, List.drop_zero]

/-- Folding `appendHistory` over any sequence of records, starting from a
trimmed history, keeps exactly the most recent `MAX_HISTORY` of the whole
sequence. -/
theorem foldl_appendHistory (recs : List HistoryRecord) :
    ∀ l : List HistoryRecord,
      recs.foldl appendHistory (l.drop (l.length - MAX_HISTORY)) =
        (l ++ recs).drop ((l ++ recs).length - MAX_HISTORY) := by
  induction recs with
  | nil => intro l; simp
  | cons r rs ih =>
    intro l
    rw [List.foldl_cons, appendHistory_eq_drop, drop_last_append,
      ih (l ++ [r])]
    simp

/-- C8: for every sequence of appended records the history list never
exceeds `MAX_HISTORY = 1000` entries, and it holds exactly the most recent
`MAX_HISTORY` records of the sequence — the oldest are evicted first. -/
theorem history_ring_spec (recs : List HistoryRecord) :
    (recs.foldl appendHistory []).length ≤ MAX_HISTORY ∧
    recs.foldl appendHistory [] =
      recs.drop (recs.length - MAX_HISTORY) := by
  have h := foldl_appendHistory recs []
  simp only [List.drop_nil, List.length_nil, Nat.zero_sub,
    List.nil_append] at h
  refine ⟨?_, h⟩
  rw [h]
  simp only [List.length_drop]
  omega

end ClaimC8

section ClaimC9

/-- The exact (unrounded) cumulative offset before segment `k`: the sum of
the first `k` segments' proportional spans. -/
def pSum (totalChars : ℕ) (duration : ℚ) (segs : List DialogueSeg)
    (k : ℕ) : ℚ :=
  ((segs.map (spanWith totalChars duration)).take k).sum

/-- A one-character dialogue segment. -/
def segA : DialogueSeg := { voice := "v1", text := "a", chars := some 1 }

/-- A two-character dialogue segment. -/
def segB : DialogueSeg := { voice := "v2", text := "bb", chars := some 2 }

/-- C9, counterexample: for segments of 1 and 2 characters and total
duration 1, the stored stamps are `[(0, 0.333), (0.333, 1)]`, so the first
segment's stored span is `0.333`, not the exactly proportional
`(1/3) * 1` — the stored offsets are 3-decimal roundings, refuting exact
proportionality. -/
theorem dialogue_timing_counterexample :
    assignTimings [segA, segB] 1 = [(0, 333 / 1000), (333 / 1000, 1)] ∧
    ¬ ((333 / 1000 : ℚ) - 0 = (1 / 3) * 1) := by
  constructor
  · simp only [assignTimings, List.map_cons, List.map_nil, List.sum_cons,
      List.sum_nil, assignTimingsFrom, segChars, segA, segB]
    norm_num [spanWith, segChars, round3, roundHalfEven, Int.fract]
  · norm_num

/-- Unrolling the timing loop: each segment `i` is stamped with the
3-decimal roundings of the exact cumulative offsets before and after it. -/
theorem assignTimingsFrom_eq (totalChars : ℕ) (d : ℚ)
    (segs : List DialogueSeg) :
    ∀ off : ℚ, assignTimingsFrom totalChars d off segs =
      (List.range segs.length).map (fun i =>
        (round3 (off + pSum totalChars d segs i),
          round3 (off + pSum totalChars d segs (i + 1)))) := by
  induction segs with
  | nil => intro off; rfl
  | cons s rest ih =>
    intro off
    have hr := ih (off + spanWith totalChars d s)
    simp only [assignTimingsFrom, hr, List.length_cons,
      List.range_succ_eq_map, List.map_cons, List.map_map]
    rw [List.cons.injEq]
    refine ⟨?_, ?_⟩
    · simp [pSum]
    · apply List.map_congr_left
      intro i hi
      simp [pSum, Function.comp, List.take_succ_cons, add_assoc]

/-- C9, amended: once the total duration is known, each dialogue segment's
stored start/end are the 3-decimal (half-to-even) roundings of the exact
proportional cumulative offsets — segment `i`'s unrounded span is
`(chars_i / max(total_chars, 1)) * duration` — so consecutive segments share
their rounded boundary (end of `i` equals start of `i+1`) and the first
segment starts at exactly 0; the stored span of a segment may differ from
its exact proportional span by rounding. -/
theorem dialogue_timing_amended (segs : List DialogueSeg) (duration : ℚ) :
    assignTimings segs duration =
      (List.range segs.length).map (fun i =>
        (round3 (pSum ((segs.map segChars).sum) duration segs i),
          round3 (pSum ((segs.map segChars).sum) duration segs (i + 1)))) ∧
    (∀ i, i + 1 < (assignTimings segs duration).length →
      ((assignTimings segs duration).get? i).map Prod.snd =
        ((assignTimings segs duration).get? (i + 1)).map Prod.fst) ∧
    (segs ≠ [] →
      ((assignTimings segs duration).head?).map Prod.fst = some 0) := by
  have h := assignTimingsFrom_eq ((segs.map segChars).sum) duration segs 0
  have hzero : ∀ k, (0 : ℚ) + pSum ((segs.map segChars).sum) duration segs k
      = pSum ((segs.map segChars).sum) duration segs k := fun k => zero_add _
  refine ⟨?_, ?_, ?_⟩
  · rw [assignTimings, h]
    apply List.map_congr_left
    intro i _
    rw [hzero, hzero]
  · intro i hi
    rw [assignTimings, h] at hi ⊢
    rw [List.length_map, List.length_range] at hi
    rw [List.get?_map, List.get?_map, List.get?_range (by omega),
      List.get?_range (by omega)]
    simp
  · intro hne
    cases segs with
    | nil => exact absurd rfl hne
    | cons s rest =>
      have h0 : round3 0 = 0 := by
        norm_num [round3, roundHalfEven, Int.fract]
      simp [assignTimings, assignTimingsFrom, h0]

/-- Witness for C9's amended claim at the concrete 1- and 2-character
segments with total duration 1: adjacent stamps share their boundary and
the first stamp starts at 0. -/
theorem dialogue_timing_amended_witness :
    ((assignTimings [segA, segB] 1).get? 0).map Prod.snd =
      ((assignTimings [segA, segB] 1).get? 1).map Prod.fst ∧
    ((assignTimings [segA, segB] 1).head?).map Prod.fst = some 0 :=
  ⟨(dialogue_timing_amended [segA, segB] 1).2.1 0 (by
      rw [(dialogue_timing_amended [segA, segB] 1).1]
      simp),
    (dialogue_timing_amended [segA, segB] 1).2.2 (by simp)⟩

end ClaimC9

end Speak
